import Mathlib

/-!
Verification of the strategy-utils data pipeline (src/app.js and the two
legacy variants in src/unnamed).  The JavaScript code is shallowly embedded:
JS numbers are idealized as exact rationals, null/undefined and non-finite
coercions are made explicit with an option-like value type, and the
asynchronous fetch loop is modelled by passing the per-token fetch outcomes
as explicit inputs.  Every definition follows the corresponding source
function; the comments name the source location.
-/

namespace StrategyUtils

/--
Model of a raw JavaScript attribute value as read from the API JSON.
A finite JS number (or a numeric string, which the code always funnels
through the Number coercion) is idealized as an exact rational.
The constructor missing covers undefined and null; nonfin covers a present
truthy value whose Number coercion is NaN or an infinity (for example a
non-numeric string).  The JS number NaN itself is falsy, but in every code
path modelled here it behaves either like missing (it coerces to 0 under
the pattern Number(x or-else 0)) or like nonfin (numOrNull maps it to null),
so no separate constructor is needed.
-/
inductive JSVal where
  | missing : JSVal
  | num : ℚ → JSVal
  | nonfin : JSVal
deriving DecidableEq

/--
src/app.js lines 1037-1041, numOrNull: null input gives null, a value whose
Number coercion is finite gives that number, anything else gives null.
-/
def numOrNull : JSVal → Option ℚ
  | .missing => none
  | .num q => some q
  | .nonfin => none

/--
src/app.js lines 529-536, computeTradingFeePercentFor(launchTs, tsSec).
A non-finite launch timestamp gives the flat default 10; a timestamp before
launch gives 95; otherwise the fee is max(10, 95 - floor(delta / 60)).
-/
def computeTradingFeePercentFor (launchTs : JSVal) (tsSec : ℚ) : ℚ :=
  match launchTs with
  | .num l =>
      let delta := tsSec - l
      if delta < 0 then 95
      else ((max 10 (95 - ⌊delta / 60⌋) : ℤ) : ℚ)
  | _ => 10

/--
src/app.js lines 956-961, breakevenMultipleFromFee(pct).  The input none
stands for a null or non-finite fee percentage.  When the denominator
100 - pct is not positive the result is null, otherwise 100 / (100 - pct).
-/
def breakevenMultipleFromFee (pct : Option ℚ) : Option ℚ :=
  match pct with
  | none => none
  | some p =>
      let denom := 100 - p
      if denom ≤ 0 then none else some (100 / denom)

/--
Model of the decimals attribute.  The API reports an integer count of token
decimals (or omits it); the embedding therefore carries an integer in the
numeric case.  The nonfin constructor again covers a present truthy value
with a non-finite Number coercion.
-/
inductive JSInt where
  | missing : JSInt
  | num : ℤ → JSInt
  | nonfin : JSInt
deriving DecidableEq

/--
Coercion Number(decimals or-else 0) from src/app.js line 1045: an absent
(falsy) value coerces to 0, a number stays itself, and a truthy non-numeric
value coerces to NaN, modelled as none.
-/
def decimalsCoerce : JSInt → Option ℤ
  | .missing => some 0
  | .num n => some n
  | .nonfin => none

/--
src/app.js lines 1043-1050, normalizeFromTotal(totalSupplyRaw, decimals):
null total supply gives null; a decimals coercion that is non-finite,
negative, or above 36 gives null; otherwise total / 10 ^ decimals.
-/
def normalizeFromTotal (totalSupplyRaw : JSVal) (decimals : JSInt) : Option ℚ :=
  match numOrNull totalSupplyRaw with
  | none => none
  | some t =>
      match decimalsCoerce decimals with
      | none => none
      | some d =>
          if d < 0 ∨ 36 < d then none
          else some (t / (10 : ℚ) ^ d.toNat)

/--
The attribute bag read by deriveSupplyForMcap (src/app.js lines 1062-1089).
Only the fields that function touches are modelled.
-/
structure TokenAttrs where
  normalized_circulating_supply : JSVal
  circulating_supply : JSVal
  normalized_total_supply : JSVal
  total_supply : JSVal
  decimals : JSInt
  market_cap_usd : JSVal
  fdv_usd : JSVal
deriving DecidableEq

/-- Rule 6 of deriveSupplyForMcap: the FDV fallback, price already positive. -/
def deriveSupplyFdv (a : TokenAttrs) (p : ℚ) : Option ℚ :=
  match numOrNull a.fdv_usd with
  | some f => if 0 < f then some (f / p) else none
  | none => none

/--
Rules 5 and 6 of deriveSupplyForMcap: the block guarded by
if (price and price greater than 0) in the source.
-/
def deriveSupplyRest56 (a : TokenAttrs) (price : Option ℚ) : Option ℚ :=
  match price with
  | some p =>
      if 0 < p then
        match numOrNull a.market_cap_usd with
        | some m =>
            if 0 < m then some (m / p) else deriveSupplyFdv a p
        | none => deriveSupplyFdv a p
      else none
  | none => none

/-- Rules 4 to 6 of deriveSupplyForMcap. -/
def deriveSupplyRest4 (a : TokenAttrs) (price : Option ℚ) : Option ℚ :=
  match normalizeFromTotal a.total_supply a.decimals with
  | some q => if 0 < q then some q else deriveSupplyRest56 a price
  | none => deriveSupplyRest56 a price

/-- Rules 3 to 6 of deriveSupplyForMcap. -/
def deriveSupplyRest3 (a : TokenAttrs) (price : Option ℚ) : Option ℚ :=
  match numOrNull a.normalized_total_supply with
  | some q => if 0 < q then some q else deriveSupplyRest4 a price
  | none => deriveSupplyRest4 a price

/-- Rules 2 to 6 of deriveSupplyForMcap (continuation after rule 1). -/
def deriveSupplyRest2 (a : TokenAttrs) (price : Option ℚ) : Option ℚ :=
  match numOrNull a.circulating_supply with
  | some q => if 0 < q then some q else deriveSupplyRest3 a price
  | none => deriveSupplyRest3 a price

/--
src/app.js lines 1062-1089, deriveSupplyForMcap(tokenAttrs, refPrice).
Each early return of the source corresponds to one if branch here; the
market-cap and FDV fallbacks are guarded by a positive reference price.
-/
def deriveSupplyForMcap (a : TokenAttrs) (refPrice : JSVal) : Option ℚ :=
  let price := numOrNull refPrice
  let normCirc := numOrNull a.normalized_circulating_supply
  match normCirc with
  | some q =>
      if 0 < q then some q else deriveSupplyRest2 a price
  | none => deriveSupplyRest2 a price

/-- An optional value that is a positive (finite) number. -/
def isPos : Option ℚ → Prop
  | some q => 0 < q
  | none => False

instance (o : Option ℚ) : Decidable (isPos o) :=
  match o with
  | some q => inferInstanceAs (Decidable (0 < q))
  | none => isFalse (fun h => h)

/--
Specification-side definition, following the spec wording of section 4.4:
the list of the six supply candidates in the documented priority order.
Candidates 5 and 6 exist only when the reference price is positive.
-/
def supplySpecCandidates (a : TokenAttrs) (refPrice : JSVal) : List (Option ℚ) :=
  let price := numOrNull refPrice
  [ numOrNull a.normalized_circulating_supply,
    numOrNull a.circulating_supply,
    numOrNull a.normalized_total_supply,
    normalizeFromTotal a.total_supply a.decimals,
    (match price with
     | some p => if 0 < p then (numOrNull a.market_cap_usd).map (fun m => m / p) else none
     | none => none),
    (match price with
     | some p => if 0 < p then (numOrNull a.fdv_usd).map (fun f => f / p) else none
     | none => none) ]

/--
Specification-side definition: first candidate that is a positive finite
number, null when none is (spec section 4.4, first positive finite match
wins).
-/
def firstPosFinite : List (Option ℚ) → Option ℚ
  | [] => none
  | o :: rest =>
      match o with
      | some q => if 0 < q then some q else firstPosFinite rest
      | none => firstPosFinite rest

/--
One OHLCV candle (src/app.js lines 1204-1206): unix timestamp in seconds
and the open, high, low, close and volume values.  The numeric entries of
the API tuples are idealized as exact rationals.
-/
structure Candle where
  ts : ℤ
  o : ℚ
  h : ℚ
  l : ℚ
  c : ℚ
  v : ℚ
deriving DecidableEq

/--
Bucket key of aggregateTo10m, src/app.js line 1214:
Math.floor(ts / 600) * 600.
-/
def bucketKey (ts : ℤ) : ℤ := ⌊(ts : ℚ) / 600⌋ * 600

/--
The accumulator record built per bucket by aggregateTo10m
(src/app.js line 1217).
-/
structure Bucket where
  ts : ℤ
  o : ℚ
  h : ℚ
  l : ℚ
  c : ℚ
  v : ℚ
  firstTs : ℤ
  lastTs : ℤ
deriving DecidableEq

/-- Fresh bucket created for an unseen key, src/app.js line 1217. -/
def newBucket (key : ℤ) (k : Candle) : Bucket :=
  { ts := key, o := k.o, h := k.h, l := k.l, c := k.c, v := k.v,
    firstTs := k.ts, lastTs := k.ts }

/--
In-place update of an existing bucket with one more candle,
src/app.js lines 1219-1224: high is the running maximum, low the running
minimum, open follows the strictly earliest timestamp seen, close the
strictly latest, and volume accumulates.
-/
def updateBucket (b : Bucket) (k : Candle) : Bucket :=
  { ts := b.ts,
    o := if k.ts < b.firstTs then k.o else b.o,
    h := max b.h k.h,
    l := min b.l k.l,
    c := if b.lastTs < k.ts then k.c else b.c,
    v := b.v + k.v,
    firstTs := if k.ts < b.firstTs then k.ts else b.firstTs,
    lastTs := if b.lastTs < k.ts then k.ts else b.lastTs }

/--
One step of the grouping loop of aggregateTo10m (src/app.js lines
1213-1226).  The JS Map is modelled as an association list in insertion
order: a new key is appended at the end, an existing entry is updated in
place.
-/
def insertCandle (m : List (ℤ × Bucket)) (k : Candle) : List (ℤ × Bucket) :=
  let key := bucketKey k.ts
  if m.any (fun p => p.1 == key) then
    m.map (fun p => if p.1 == key then (p.1, updateBucket p.2 k) else p)
  else
    m ++ [(key, newBucket key k)]

/-- Ascending-timestamp order used by the final sort of aggregateTo10m. -/
def candleTsLe (a b : Candle) : Prop := a.ts ≤ b.ts

instance : DecidableRel candleTsLe := fun a b =>
  inferInstanceAs (Decidable (a.ts ≤ b.ts))

instance : IsTotal Candle candleTsLe :=
  ⟨fun a b => le_total a.ts b.ts⟩

instance : IsTrans Candle candleTsLe :=
  ⟨fun _ _ _ hab hbc => le_trans hab hbc⟩

/--
Projection of a finished bucket to the candle fields the rest of the code
reads.  The JS buckets keep the helper fields firstTs and lastTs on the
returned objects, but no consumer reads them, so they are dropped here.
-/
def bucketCandle (b : Bucket) : Candle :=
  { ts := b.ts, o := b.o, h := b.h, l := b.l, c := b.c, v := b.v }

/--
src/app.js lines 1210-1228, aggregateTo10m(oneMin): group the 1-minute
candles by bucket key with the insertion loop, then sort the bucket values
ascending by timestamp (the JS comparator a.ts - b.ts).  The sort is
modelled with the stable insertion sort, matching the stable JS
Array.prototype.sort; bucket keys are pairwise distinct, so any sorted
permutation is the same list.
-/
def aggregateTo10m (oneMin : List Candle) : List Candle :=
  let buckets := oneMin.foldl insertCandle []
  List.insertionSort candleTsLe (buckets.map (fun p => bucketCandle p.2))

/-- The candles of the input that fall into bucket b. -/
def groupOf (l : List Candle) (b : ℤ) : List Candle :=
  l.filter (fun k => bucketKey k.ts == b)

/--
One entry of the included array of the token JSON
(src/app.js lines 1157-1186).  Only the fields pickMostLiquidPool reads are
modelled; reserve and volume are optional rationals (an absent or falsy
value coerces to 0 under Number(x or-else 0); a non-numeric reserve string
is outside the modelled domain).
-/
structure IncludedEnt where
  typ : String
  address : Option String
  reserve_in_usd : Option ℚ
  vol_h24 : Option ℚ
  dex_name : Option String
  pool_created_at : Option String
  base_token_id : String
  quote_token_id : String
deriving DecidableEq

/-- The token JSON as consumed by pickMostLiquidPool: its included array. -/
structure TokenJson where
  included : List IncludedEnt
deriving DecidableEq

/-- The record pickMostLiquidPool returns (src/app.js lines 1180-1186). -/
structure ChosenPool where
  poolAddress : Option String
  reserveUSD : ℚ
  dexName : String
  baseAddress : String
  quoteAddress : String
  side : String
  createdAtISO : Option String
deriving DecidableEq

/-- Coercion Number(x or-else 0) for the sort keys of the pool comparator. -/
def q0 (o : Option ℚ) : ℚ := o.getD 0

/--
The total preorder realized by the JS comparator of src/app.js lines
1162-1169: reserve_in_usd descending, ties by 24h volume descending.
poolOrder a b holds when a sorts before or with b.
-/
def poolOrder (a b : IncludedEnt) : Prop :=
  q0 b.reserve_in_usd < q0 a.reserve_in_usd ∨
    (q0 a.reserve_in_usd = q0 b.reserve_in_usd ∧ q0 b.vol_h24 ≤ q0 a.vol_h24)

instance : DecidableRel poolOrder := fun a b => by
  unfold poolOrder; infer_instance

instance : IsTotal IncludedEnt poolOrder := by
  constructor
  intro a b
  rcases lt_trichotomy (q0 a.reserve_in_usd) (q0 b.reserve_in_usd) with h | h | h
  · exact Or.inr (Or.inl h)
  · rcases le_total (q0 b.vol_h24) (q0 a.vol_h24) with hv | hv
    · exact Or.inl (Or.inr ⟨h, hv⟩)
    · exact Or.inr (Or.inr ⟨h.symm, hv⟩)
  · exact Or.inl (Or.inl h)

instance : IsTrans IncludedEnt poolOrder := by
  constructor
  intro a b c hab hbc
  rcases hab with h1 | ⟨h1, v1⟩
  · rcases hbc with h2 | ⟨h2, v2⟩
    · exact Or.inl (h2.trans h1)
    · exact Or.inl (h2 ▸ h1)
  · rcases hbc with h2 | ⟨h2, v2⟩
    · exact Or.inl (h1 ▸ h2)
    · exact Or.inr ⟨h1.trans h2, v2.trans v1⟩

/--
src/app.js line 1136, normAddr: lowercase the address.  The JS
toLowerCase call is realized character by character over the underlying
list, which agrees with it on the ASCII addresses this code handles.
-/
def normAddr (a : String) : String := String.mk (a.toList.map Char.toLower)

/--
Splitting a character list at every underscore, with empty segments
preserved: the semantics of the JS split call with the one-character
separator used on relationship ids.
-/
def splitUnder : List Char → List (List Char)
  | [] => [[]]
  | c :: rest =>
      match splitUnder rest with
      | [] => [[]]
      | seg :: segs =>
          if c = '_' then [] :: seg :: segs else (c :: seg) :: segs

/--
Extraction of the token address from a relationship id of the form
network_address (src/app.js lines 1174-1175): the segment after the first
underscore when one is present (split yields at least two parts), the id
itself otherwise.
-/
def sideAddrOf (id : String) : String :=
  let parts := (splitUnder id.toList).map String.mk
  if 2 ≤ parts.length then parts.getD 1 "" else id

/--
src/app.js lines 1157-1187, pickMostLiquidPool(tokenJson, tokenAddress):
filter the included entities to type pool, return null when none remain,
sort by the liquidity comparator and take the first, then determine the
side by comparing the quote token address case-insensitively against the
queried address.
-/
def pickMostLiquidPool (tokenJson : TokenJson) (tokenAddress : String) :
    Option ChosenPool :=
  let data := tokenJson.included.filter (fun x => x.typ == "pool")
  if data.isEmpty then none
  else
    match List.insertionSort poolOrder data with
    | [] => none
    | pool :: _ =>
        let baseAddr := sideAddrOf pool.base_token_id
        let quoteAddr := sideAddrOf pool.quote_token_id
        some
          { poolAddress := pool.address,
            reserveUSD := q0 pool.reserve_in_usd,
            dexName := pool.dex_name.getD "—",
            baseAddress := baseAddr,
            quoteAddress := quoteAddr,
            side :=
              if normAddr quoteAddr == normAddr tokenAddress then "quote"
              else "base",
            createdAtISO := pool.pool_created_at }

/--
Outcome of one loadOneToken call in the COMPARE ALL loop of loadPrices
(src/app.js lines 1378-1387), with the network interaction made explicit:
either a dataset is produced, or the function returns the No-pool error
object (src/app.js line 356), or the underlying fetch throws an HTTP or
network error (src/app.js line 1146), or it rejects with AbortError.
The dataset payload is irrelevant to the control flow and modelled by a
number.
-/
inductive TokenOutcome where
  | ok : ℕ → TokenOutcome
  | noPool : TokenOutcome
  | httpThrow : String → TokenOutcome
  | abortThrow : TokenOutcome
deriving DecidableEq

/-- A JS exception escaping the COMPARE ALL loop. -/
inductive JsErr where
  | http : String → JsErr
  | abort : JsErr
deriving DecidableEq

/--
Terminal status of one loadPrices invocation in COMPARE ALL mode:
the success status (src/app.js line 1419), the no-data status
(src/app.js line 1391), the Stopped status of the AbortError handler
(src/app.js line 1458) or the error status of the outer catch
(src/app.js line 1460).
-/
inductive LoadStatus where
  | done : List (String × ℕ) → LoadStatus
  | noData : LoadStatus
  | stopped : LoadStatus
  | errorStatus : String → LoadStatus
deriving DecidableEq

/--
The for loop of src/app.js lines 1378-1387: each token is loaded in turn;
a dataset is kept, the No-pool error object is skipped, and a thrown
exception leaves the loop at once (there is no try-catch inside the loop),
abandoning the remaining tokens.
-/
def compareAllLoop :
    List (String × TokenOutcome) → List (String × ℕ) →
    Except JsErr (List (String × ℕ))
  | [], acc => .ok acc
  | (k, outc) :: rest, acc =>
      match outc with
      | .ok d => compareAllLoop rest (acc ++ [(k, d)])
      | .noPool => compareAllLoop rest acc
      | .httpThrow msg => .error (.http msg)
      | .abortThrow => .error .abort

/--
The COMPARE ALL branch of loadPrices together with its outer catch
(src/app.js lines 1372-1392 and 1457-1463): an escaped AbortError reports
Stopped, any other escaped exception reports an error status, an empty
result set reports the terminal no-data status, and otherwise the loaded
datasets are committed.
-/
def loadPricesAll (tokens : List (String × TokenOutcome)) : LoadStatus :=
  match compareAllLoop tokens [] with
  | .error .abort => .stopped
  | .error (.http m) => .errorStatus m
  | .ok [] => .noData
  | .ok ds => .done ds

/-- The tokens of the list whose load produces a dataset, in order. -/
def okList (tokens : List (String × TokenOutcome)) : List (String × ℕ) :=
  tokens.filterMap (fun p =>
    match p.2 with
    | .ok d => some (p.1, d)
    | _ => none)

/-- The chart metrics selectable in buildChartDataMulti (src/app.js lines 444-464). -/
inductive Metric where
  | mopen
  | mhigh
  | mlow
  | mclose
  | mvolume
  | mmcap
  | mfee
  | mbreakeven
  | mbreakevenMc
deriving DecidableEq

/--
Lookup in the timestamp map of buildChartDataMulti, src/app.js line 432:
new Map(rows.map(r to [r.ts, r])) followed by get(ts).  When several rows
share a timestamp the later entry overwrites the earlier one, hence the
search over the reversed list.
-/
def lookupRow (rows : List Candle) (ts : ℤ) : Option Candle :=
  rows.reverse.find? (fun r => r.ts == ts)

/--
The switch of buildChartDataMulti (src/app.js lines 444-464) for a grid
timestamp at which a row was found: the metric value of that row, null
when the needed supply or launch data is absent.  The final non-finiteness
filter of line 467 is the identity in the exact-rational idealization and
null is propagated as none.
-/
def metricVal (ser : Metric) (r : Candle) (supply : Option ℚ)
    (launchTs : JSVal) (ts : ℤ) : Option ℚ :=
  match ser with
  | .mopen => some r.o
  | .mhigh => some r.h
  | .mlow => some r.l
  | .mclose => some r.c
  | .mvolume => some r.v
  | .mmcap =>
      match supply with
      | some s => some (r.c * s)
      | none => none
  | .mfee =>
      match launchTs with
      | .num l => some (computeTradingFeePercentFor (.num l) (ts : ℚ))
      | _ => some 10
  | .mbreakeven =>
      match launchTs with
      | .num l =>
          breakevenMultipleFromFee
            (some (computeTradingFeePercentFor (.num l) (ts : ℚ)))
      | _ => none
  | .mbreakevenMc =>
      match launchTs, supply with
      | .num l, some s =>
          (breakevenMultipleFromFee
            (some (computeTradingFeePercentFor (.num l) (ts : ℚ)))).map
            (fun mult => mult * (r.c * s))
      | _, _ => none

/--
The inner loop of buildChartDataMulti (src/app.js lines 437-468) for one
strategy and one metric: one output slot per grid timestamp, none when the
dataset has no row at exactly that timestamp.
-/
def projectSeries (rows : List Candle) (supply : Option ℚ)
    (launchTs : JSVal) (grid : List ℤ) (ser : Metric) : List (Option ℚ) :=
  grid.map (fun ts =>
    match lookupRow rows ts with
    | none => none
    | some r => metricVal ser r supply launchTs ts)

/-- The rows of a dataset carrying exactly the timestamp ts. -/
def rowsAt (rows : List Candle) (ts : ℤ) : List Candle :=
  rows.filter (fun r => r.ts == ts)

/--
ToInt32 as performed by the bitwise-or coercion t | 0 on src/app.js
line 245: reduce modulo 2 ^ 32 into the signed 32-bit range.
-/
def toInt32 (n : ℤ) : ℤ :=
  let m := n % 4294967296
  if m < 2147483648 then m else m - 4294967296

/--
The loop body of createTimeGrid (src/app.js lines 243-247), written with a
fuel argument so that the recursion is structural: while t is at most
endUnix, push t | 0 and advance by stepSec.  For integer inputs the JS
guard t less-or-equal endUnix + 1e-9 coincides with t less-or-equal
endUnix, because between consecutive integers representable as doubles the
added 1e-9 either vanishes by rounding or changes nothing.
-/
def gridLoop (endUnix stepSec : ℤ) : ℕ → ℤ → List ℤ
  | 0, _ => []
  | fuel + 1, t =>
      if t ≤ endUnix then toInt32 t :: gridLoop endUnix stepSec fuel (t + stepSec)
      else []

/--
src/app.js lines 243-247, createTimeGrid(startUnix, endUnix, stepSec).
The fuel (endUnix - startUnix).toNat + 1 bounds the iteration count of the
JS loop whenever stepSec is at least 1; for stepSec at most 0 with
startUnix at most endUnix the JS loop does not terminate, which is outside
the modelled domain (every caller passes a positive step).
-/
def createTimeGrid (startUnix endUnix stepSec : ℤ) : List ℤ :=
  gridLoop endUnix stepSec ((endUnix - startUnix).toNat + 1) startUnix

/-- The in-range filter shared by all three truncation paths. -/
def inRangeRows (series : List Candle) (startUnix endUnix : ℤ) : List Candle :=
  series.filter (fun k => decide (startUnix ≤ k.ts) && decide (k.ts ≤ endUnix))

/--
src/app.js line 391 (loadOneToken, multi-token path): keep the first
maxRows in-range rows, slice(0, maxRows).
-/
def rowsMulti (series : List Candle) (startUnix endUnix : ℤ)
    (maxRows : ℕ) : List Candle :=
  (inRangeRows series startUnix endUnix).take maxRows

/--
src/unnamed/part_001 lines 540-541 (legacy single-token loadPrices): keep
the first maxRows in-range rows, slice(0, maxRows).
-/
def rowsLegacyPart1 (series : List Candle) (startUnix endUnix : ℤ)
    (maxRows : ℕ) : List Candle :=
  (inRangeRows series startUnix endUnix).take maxRows

/--
src/unnamed/part_002 lines 1762-1763 (older legacy single-token
loadPrices): keep the last maxRows in-range rows, slice(-maxRows).  The
callers clamp maxRows to at least 1; for maxRows = 0 the JS slice(-0)
returns the whole list, outside the modelled domain.
-/
def rowsLegacyPart2 (series : List Candle) (startUnix endUnix : ℤ)
    (maxRows : ℕ) : List Candle :=
  let inRange := inRangeRows series startUnix endUnix
  inRange.drop (inRange.length - maxRows)

/-- Concrete 1-minute candles exercising two aggregation buckets. -/
def exAggInput : List Candle :=
  [⟨0, 1, 2, 0, 1, 5⟩, ⟨60, 2, 3, 1, 2, 5⟩, ⟨600, 3, 4, 2, 3, 7⟩]

/-- Concrete sorted in-range series with three rows, for the truncation claims. -/
def exTruncSeries : List Candle :=
  [⟨0, 0, 0, 0, 0, 0⟩, ⟨600, 0, 0, 0, 1, 0⟩, ⟨1200, 0, 0, 0, 2, 0⟩]

/-- The dataset rows of the worked projection example of spec section 8. -/
def exProjRows : List Candle :=
  [⟨1000, 0, 0, 0, 10, 0⟩, ⟨4600, 0, 0, 0, 12, 0⟩]

/-- Concrete attributes: rule 1 applies, rule 5 data present. -/
def exAttrsA : TokenAttrs :=
  ⟨.num 7, .missing, .missing, .missing, .missing, .num 1, .missing⟩

/-- Concrete attributes agreeing with exAttrsA on rule 1 but not below. -/
def exAttrsB : TokenAttrs :=
  ⟨.num 7, .num 3, .missing, .missing, .missing, .missing, .num 9⟩

/-- Concrete attributes with only a raw total supply and a market cap. -/
def exAttrsTotal : TokenAttrs :=
  ⟨.missing, .missing, .missing, .num 5000, .missing, .num 2, .missing⟩

/-- A concrete token JSON with two pools of distinct liquidity. -/
def exTokenJson : TokenJson :=
  ⟨[⟨"pool", some "poolA", some 5, some 1, none, none, "eth_0xA", "eth_0xB"⟩,
    ⟨"pool", some "poolB", some 9, some 1, none, none, "eth_0xA", "eth_0xB"⟩]⟩

/-- The pool record pickMostLiquidPool returns on exTokenJson. -/
def exChosenPool : ChosenPool :=
  { poolAddress := some "poolB", reserveUSD := 9, dexName := "—",
    baseAddress := "0xA", quoteAddress := "0xB", side := "quote",
    createdAtISO := none }

/--
A bucket record correctly summarizes a group of candles: firstTs and
lastTs are the least and greatest timestamps, open and close come from a
member attaining them, high and low are attained maximum and minimum, and
volume is the sum.
-/
def Summarizes (g : List Candle) (b : Bucket) : Prop :=
  (∀ k ∈ g, b.firstTs ≤ k.ts) ∧
  (∀ k ∈ g, k.ts ≤ b.lastTs) ∧
  (∃ k ∈ g, k.ts = b.firstTs ∧ b.o = k.o) ∧
  (∃ k ∈ g, k.ts = b.lastTs ∧ b.c = k.c) ∧
  (b.h ∈ g.map Candle.h ∧ ∀ k ∈ g, k.h ≤ b.h) ∧
  (b.l ∈ g.map Candle.l ∧ ∀ k ∈ g, b.l ≤ k.l) ∧
  b.v = (g.map Candle.v).sum

/--
Invariant of the grouping loop of aggregateTo10m: the association list has
pairwise distinct keys, each bucket carries its key as timestamp and
summarizes exactly the already processed candles of its bucket, and the
key set is the set of bucket keys of the processed candles.
-/
def MapInv (processed : List Candle) (m : List (ℤ × Bucket)) : Prop :=
  (m.map Prod.fst).Nodup ∧
  (∀ p ∈ m, p.2.ts = p.1) ∧
  (∀ p ∈ m, Summarizes (groupOf processed p.1) p.2) ∧
  (∀ b : ℤ, b ∈ m.map Prod.fst ↔ ∃ k ∈ processed, bucketKey k.ts = b)

/-! Theorems.  Each claim of the specification review is settled by exactly
one theorem below; shared helper lemmas come first. -/

theorem fee_delta_nonneg (l ts : ℚ) (h : l ≤ ts) :
    computeTradingFeePercentFor (.num l) ts =
      ((max 10 (95 - ⌊(ts - l) / 60⌋) : ℤ) : ℚ) := by
  unfold computeTradingFeePercentFor
  simp only []
  rw [if_neg]
  simpa using h

/--
C2: computeTradingFeePercentFor equals 10 for a non-finite launch
timestamp, 95 before launch, and max(10, 95 - floor((ts - launch)/60))
from launch on; hence 95 at launch, non-increasing in ts over ts at least
launch, and 10 from launch + 85 minutes on.
-/
theorem computeTradingFeePercentFor_spec :
    (∀ ts : ℚ, computeTradingFeePercentFor .missing ts = 10 ∧
      computeTradingFeePercentFor .nonfin ts = 10) ∧
    (∀ l ts : ℚ, ts < l → computeTradingFeePercentFor (.num l) ts = 95) ∧
    (∀ l ts : ℚ, l ≤ ts →
      computeTradingFeePercentFor (.num l) ts =
        ((max 10 (95 - ⌊(ts - l) / 60⌋) : ℤ) : ℚ)) ∧
    (∀ l : ℚ, computeTradingFeePercentFor (.num l) l = 95) ∧
    (∀ l t₁ t₂ : ℚ, l ≤ t₁ → t₁ ≤ t₂ →
      computeTradingFeePercentFor (.num l) t₂ ≤
        computeTradingFeePercentFor (.num l) t₁) ∧
    (∀ l ts : ℚ, l + 85 * 60 ≤ ts →
      computeTradingFeePercentFor (.num l) ts = 10) := by
  refine ⟨fun ts => ⟨rfl, rfl⟩, ?_, fee_delta_nonneg, ?_, ?_, ?_⟩
  · intro l ts h
    unfold computeTradingFeePercentFor
    simp only []
    rw [if_pos]
    linarith
  · intro l
    rw [fee_delta_nonneg l l le_rfl]
    norm_num
  · intro l t₁ t₂ h1 h12
    rw [fee_delta_nonneg l t₁ h1, fee_delta_nonneg l t₂ (h1.trans h12)]
    have hfl : ⌊(t₁ - l) / 60⌋ ≤ ⌊(t₂ - l) / 60⌋ := by
      apply Int.floor_le_floor
      apply div_le_div_of_nonneg_right _ (by norm_num)
      linarith
    exact_mod_cast max_le_max le_rfl (by omega)
  · intro l ts h
    rw [fee_delta_nonneg l ts (by linarith)]
    have hfl : (85 : ℤ) ≤ ⌊(ts - l) / 60⌋ := by
      rw [Int.le_floor]
      rw [le_div_iff₀ (by norm_num : (0:ℚ) < 60)]
      push_cast
      linarith
    have : max 10 (95 - ⌊(ts - l) / 60⌋) = 10 := by omega
    rw [this]
    norm_num

/--
Witness for C2: the worked example of spec section 8, 45 minutes after
launch.
-/
theorem computeTradingFeePercentFor_spec_witness :
    (0 : ℚ) ≤ 2700 ∧
    computeTradingFeePercentFor (.num 0) 2700 =
      ((max 10 (95 - ⌊((2700 : ℚ) - 0) / 60⌋) : ℤ) : ℚ) :=
  ⟨by norm_num, computeTradingFeePercentFor_spec.2.2.1 0 2700 (by norm_num)⟩

/--
C3: for every finite fee percentage below 100 the breakeven multiple is
the value 100 / (100 - pct), whose product with 100 - pct is exactly 100
over the rationals; and the result is null exactly when the input is null
or non-finite or the denominator 100 - pct is not positive.
-/
theorem breakevenMultipleFromFee_spec :
    (∀ p : ℚ, p < 100 →
      breakevenMultipleFromFee (some p) = some (100 / (100 - p)) ∧
      100 / (100 - p) * (100 - p) = 100) ∧
    (∀ o : Option ℚ, breakevenMultipleFromFee o = none ↔
      o = none ∨ ∃ p, o = some p ∧ 100 - p ≤ 0) := by
  constructor
  · intro p hp
    have hd : (0 : ℚ) < 100 - p := by linarith
    constructor
    · unfold breakevenMultipleFromFee
      simp only []
      rw [if_neg (not_le.mpr hd)]
    · exact div_mul_cancel₀ 100 hd.ne'
  · intro o
    match o with
    | none => simp [breakevenMultipleFromFee]
    | some p =>
        by_cases hd : 100 - p ≤ 0
        · simp only [breakevenMultipleFromFee, if_pos hd]
          simp only [true_iff, eq_self_iff_true]
          simp
          linarith
        · simp only [breakevenMultipleFromFee, if_neg hd]
          simp
          linarith

/-- Witness for C3: fee 50 percent gives breakeven multiple 2. -/
theorem breakevenMultipleFromFee_spec_witness :
    breakevenMultipleFromFee (some 50) = some (100 / (100 - 50)) ∧
    (100 : ℚ) / (100 - 50) * (100 - 50) = 100 :=
  breakevenMultipleFromFee_spec.1 50 (by norm_num)

theorem toInt32_eq_self (n : ℤ) (h1 : -2147483648 ≤ n) (h2 : n < 2147483648) :
    toInt32 n = n := by
  unfold toInt32
  simp only []
  rcases le_or_lt 0 n with hn | hn
  · have hm : n % 4294967296 = n := Int.emod_eq_of_lt hn (by omega)
    rw [hm, if_pos (by omega)]
  · have hm : n % 4294967296 = n + 4294967296 := by
      have h0 : (0 : ℤ) ≤ n % 4294967296 := Int.emod_nonneg n (by norm_num)
      have h1' : n % 4294967296 < 4294967296 := Int.emod_lt_of_pos n (by norm_num)
      have h2' : (n + 4294967296) % 4294967296 = n % 4294967296 := by
        omega
      omega
    rw [hm, if_neg (by omega)]
    omega

theorem gridLoop_closed (endU step : ℤ) (hstep : 0 < step) :
    ∀ (fuel : ℕ) (t : ℤ),
      (if t ≤ endU then ((endU - t) / step).toNat + 1 else 0) ≤ fuel →
      gridLoop endU step fuel t =
        (List.range (if t ≤ endU then ((endU - t) / step).toNat + 1 else 0)).map
          (fun k : ℕ => toInt32 (t + (k : ℤ) * step)) := by
  intro fuel
  induction fuel with
  | zero =>
      intro t ht
      by_cases h : t ≤ endU
      · rw [if_pos h] at ht; omega
      · rw [if_neg h] at ht ⊢
        simp [gridLoop]
  | succ fuel ih =>
      intro t ht
      by_cases h : t ≤ endU
      · rw [if_pos h] at ht ⊢
        have hx : 0 ≤ endU - t := by omega
        set n := ((endU - t) / step).toNat with hn
        have hrec : gridLoop endU step (fuel + 1) t =
            toInt32 t :: gridLoop endU step fuel (t + step) := by
          simp [gridLoop, if_pos h]
        rw [hrec]
        have hnext :
            (if t + step ≤ endU then ((endU - (t + step)) / step).toNat + 1 else 0) = n := by
          by_cases h2 : t + step ≤ endU
          · rw [if_pos h2]
            have hdiv : (endU - (t + step)) / step = (endU - t) / step - 1 := by
              have he : endU - (t + step) = (endU - t) + (-1) * step := by ring
              rw [he, Int.add_mul_ediv_right _ _ (by omega : step ≠ 0)]
              omega
            have hge1 : 1 ≤ (endU - t) / step := by
              rw [Int.le_ediv_iff_mul_le hstep]
              omega
            rw [hdiv, hn]
            omega
          · rw [if_neg h2]
            have hlt : endU - t < step := by omega
            have hz : (endU - t) / step = 0 := Int.ediv_eq_zero_of_lt hx hlt
            omega
        have hfuel : (if t + step ≤ endU then ((endU - (t + step)) / step).toNat + 1 else 0) ≤ fuel := by
          omega
        rw [ih (t + step) hfuel, hnext]
        rw [List.range_succ_eq_map]
        simp only [List.map_cons, List.map_map]
        congr 1
        · rw [Nat.cast_zero, zero_mul, add_zero]
        · apply List.map_congr_left
          intro k _
          simp only [Function.comp_apply]
          congr 1
          push_cast
          ring
      · rw [if_neg h] at ht ⊢
        simp only [List.range_zero, List.map_nil]
        simp [gridLoop, if_neg h]

theorem createTimeGrid_closed (startU endU step : ℤ) (hstep : 0 < step)
    (hse : startU ≤ endU) :
    createTimeGrid startU endU step =
      (List.range (((endU - startU) / step).toNat + 1)).map
        (fun k : ℕ => toInt32 (startU + (k : ℤ) * step)) := by
  unfold createTimeGrid
  have hdle : (endU - startU) / step ≤ endU - startU :=
    Int.ediv_le_self _ (by omega)
  have hcl := gridLoop_closed endU step hstep ((endU - startU).toNat + 1) startU
    (by rw [if_pos hse]; omega)
  rw [hcl, if_pos hse]

/--
Counterexample for C8: at startUnix = endUnix = 2 ^ 31 with step 1 the
returned grid is the single wrapped value -2 ^ 31, not the claimed
arithmetic sequence starting at startUnix (the push applies the 32-bit
coercion t | 0).
-/
theorem createTimeGrid_wraps :
    createTimeGrid 2147483648 2147483648 1 = [-2147483648] ∧
    createTimeGrid 2147483648 2147483648 1 ≠ [2147483648] := by
  constructor
  · rfl
  · decide

/--
C8 (amended): for integer inputs with positive step and start at most end,
the grid has length floor((end - start) / step) + 1 unconditionally; when
every grid point lies inside the signed 32-bit range the grid is exactly
the arithmetic sequence start, start + step, ... and every element is at
most endUnix; and for endUnix = startUnix + (maxRows - 1) * stepSeconds
with maxRows at least 1 the grid has exactly maxRows points.
-/
theorem createTimeGrid_spec :
    (∀ startU endU step : ℤ, 0 < step → startU ≤ endU →
      (createTimeGrid startU endU step).length =
        ((endU - startU) / step).toNat + 1) ∧
    (∀ startU endU step : ℤ, 0 < step → startU ≤ endU →
      -2147483648 ≤ startU → endU < 2147483648 →
      createTimeGrid startU endU step =
        (List.range (((endU - startU) / step).toNat + 1)).map
          (fun k : ℕ => startU + (k : ℤ) * step) ∧
      ∀ x ∈ createTimeGrid startU endU step, x ≤ endU) ∧
    (∀ (startU step : ℤ) (maxRows : ℕ), 0 < step → 1 ≤ maxRows →
      (createTimeGrid startU (startU + ((maxRows : ℤ) - 1) * step) step).length =
        maxRows) := by
  have helem : ∀ startU endU step : ℤ, 0 < step → startU ≤ endU →
      ∀ k : ℕ, k < ((endU - startU) / step).toNat + 1 →
        startU ≤ startU + (k : ℤ) * step ∧ startU + (k : ℤ) * step ≤ endU := by
    intro startU endU step hstep hse k hk
    have hd0 : 0 ≤ (endU - startU) / step := Int.ediv_nonneg (by omega) (by omega)
    have hkle : (k : ℤ) ≤ (endU - startU) / step := by omega
    have hknn : (0 : ℤ) ≤ (k : ℤ) * step :=
      mul_nonneg (Nat.cast_nonneg k) (le_of_lt hstep)
    constructor
    · omega
    · have hmul : (k : ℤ) * step ≤ (endU - startU) / step * step :=
        mul_le_mul_of_nonneg_right hkle (by omega)
      have hdivmul : (endU - startU) / step * step ≤ endU - startU :=
        Int.ediv_mul_le _ (by omega)
      omega
  refine ⟨?_, ?_, ?_⟩
  · intro startU endU step hstep hse
    rw [createTimeGrid_closed startU endU step hstep hse]
    rw [List.length_map, List.length_range]
  · intro startU endU step hstep hse hlo hhi
    have hbound := helem startU endU step hstep hse
    constructor
    · rw [createTimeGrid_closed startU endU step hstep hse]
      apply List.map_congr_left
      intro k hk
      rw [List.mem_range] at hk
      have hb := hbound k hk
      exact toInt32_eq_self _ (by omega) (by omega)
    · intro x hx
      rw [createTimeGrid_closed startU endU step hstep hse] at hx
      rw [List.mem_map] at hx
      obtain ⟨k, hk, hxe⟩ := hx
      rw [List.mem_range] at hk
      have hb := hbound k hk
      rw [toInt32_eq_self _ (by omega) (by omega)] at hxe
      omega
  · intro startU step maxRows hstep hM
    have hM1 : (1 : ℤ) ≤ (maxRows : ℤ) := by exact_mod_cast hM
    have hmulnn : (0 : ℤ) ≤ ((maxRows : ℤ) - 1) * step :=
      mul_nonneg (by omega) (le_of_lt hstep)
    have hse : startU ≤ startU + ((maxRows : ℤ) - 1) * step := by omega
    rw [createTimeGrid_closed _ _ _ hstep hse]
    rw [List.length_map, List.length_range]
    have he : startU + ((maxRows : ℤ) - 1) * step - startU = ((maxRows : ℤ) - 1) * step := by
      ring
    rw [he, Int.mul_ediv_cancel _ (by omega)]
    omega

/-- Witness for C8: a one-hour grid of three rows starting at 1000. -/
theorem createTimeGrid_spec_witness :
    (createTimeGrid 1000 (1000 + ((3 : ℤ) - 1) * 3600) 3600).length = 3 :=
  createTimeGrid_spec.2.2 1000 3600 3 (by norm_num) (by norm_num)

/--
Counterexample for C9: on a three-row in-range series with maxRows = 2 the
legacy single-token path of src/unnamed/part_001 (lines 540-541, slice(0,
maxRows)) produces the same rows as the multi-token path, not the last
maxRows rows, although more than maxRows rows fall in range.
-/
theorem rowsLegacyPart1_matches_multi :
    rowsLegacyPart1 exTruncSeries 0 1200 2 = rowsMulti exTruncSeries 0 1200 2 ∧
    rowsLegacyPart1 exTruncSeries 0 1200 2 ≠ rowsLegacyPart2 exTruncSeries 0 1200 2 ∧
    2 < (inRangeRows exTruncSeries 0 1200).length := by
  refine ⟨rfl, ?_, by decide⟩
  decide

/--
C9 (amended): the multi-token path of src/app.js line 391 and the legacy
path of src/unnamed/part_001 both keep the earliest maxRows in-range rows
and agree on every input; the older legacy path of src/unnamed/part_002
line 1763 keeps the last maxRows in-range rows, and whenever more than
maxRows rows with pairwise distinct timestamps fall in range (maxRows at
least 1) its result differs from the multi-token result.
-/
theorem truncation_spec :
    (∀ (series : List Candle) (s e : ℤ) (m : ℕ),
      rowsLegacyPart1 series s e m = rowsMulti series s e m) ∧
    (∀ (series : List Candle) (s e : ℤ) (m : ℕ),
      1 ≤ m →
      m < (inRangeRows series s e).length →
      ((inRangeRows series s e).map Candle.ts).Nodup →
      rowsLegacyPart2 series s e m ≠ rowsMulti series s e m) := by
  constructor
  · intro series s e m
    rfl
  · intro series s e m hm hlen hnd heq
    set L := inRangeRows series s e with hL
    have hnodup : L.Nodup := List.Nodup.of_map _ hnd
    have hk1 : 1 ≤ L.length - m := by omega
    have hgetTake : (rowsMulti series s e m)[0]? = L[0]? := by
      unfold rowsMulti
      rw [List.getElem?_take]
      rw [if_pos (by omega)]
    have hgetDrop : (rowsLegacyPart2 series s e m)[0]? = L[L.length - m]? := by
      unfold rowsLegacyPart2
      simp only []
      rw [List.getElem?_drop, Nat.add_zero]
    have h0lt : 0 < L.length := by omega
    have hklt : L.length - m < L.length := by omega
    rw [heq, hgetTake] at hgetDrop
    rw [List.getElem?_eq_getElem h0lt, List.getElem?_eq_getElem hklt] at hgetDrop
    have hgeteq : L.get ⟨0, h0lt⟩ = L.get ⟨L.length - m, hklt⟩ := by
      simpa using hgetDrop
    have := (hnodup.get_inj_iff).mp hgeteq
    have : (0 : ℕ) = L.length - m := congrArg Fin.val this
    omega

/-- Witness for C9 (amended): the concrete three-row series. -/
theorem truncation_spec_witness :
    rowsLegacyPart2 exTruncSeries 0 1200 2 ≠ rowsMulti exTruncSeries 0 1200 2 :=
  truncation_spec.2 exTruncSeries 0 1200 2 (by decide) (by decide) (by decide)

theorem compareAllLoop_no_throw :
    ∀ (tokens : List (String × TokenOutcome)) (acc : List (String × ℕ)),
      (∀ p ∈ tokens, (∀ m, p.2 ≠ .httpThrow m) ∧ p.2 ≠ .abortThrow) →
      compareAllLoop tokens acc = .ok (acc ++ okList tokens) := by
  intro tokens
  induction tokens with
  | nil => intro acc _; simp [compareAllLoop, okList]
  | cons p rest ih =>
      intro acc hp
      obtain ⟨k, outc⟩ := p
      have hhead := hp (k, outc) (by simp)
      have hrest : ∀ q ∈ rest, (∀ m, q.2 ≠ .httpThrow m) ∧ q.2 ≠ .abortThrow :=
        fun q hq => hp q (by simp [hq])
      match outc with
      | .ok d =>
          rw [show compareAllLoop ((k, TokenOutcome.ok d) :: rest) acc =
              compareAllLoop rest (acc ++ [(k, d)]) from rfl]
          rw [ih _ hrest]
          simp [okList]
      | .noPool =>
          rw [show compareAllLoop ((k, TokenOutcome.noPool) :: rest) acc =
              compareAllLoop rest acc from rfl]
          rw [ih _ hrest]
          simp [okList]
      | .httpThrow m => exact absurd rfl (hhead.1 m)
      | .abortThrow => exact absurd rfl hhead.2

theorem compareAllLoop_throw :
    ∀ (pre : List (String × TokenOutcome)) (acc : List (String × ℕ))
      (k : String) (m : String) (post : List (String × TokenOutcome)),
      (∀ p ∈ pre, (∀ m', p.2 ≠ .httpThrow m') ∧ p.2 ≠ .abortThrow) →
      compareAllLoop (pre ++ (k, .httpThrow m) :: post) acc = .error (.http m) := by
  intro pre
  induction pre with
  | nil => intro acc k m post _; rfl
  | cons p rest ih =>
      intro acc k m post hp
      obtain ⟨k0, outc⟩ := p
      have hhead := hp (k0, outc) (by simp)
      have hrest : ∀ q ∈ rest, (∀ m', q.2 ≠ .httpThrow m') ∧ q.2 ≠ .abortThrow :=
        fun q hq => hp q (by simp [hq])
      match outc with
      | .ok d => exact ih _ k m post hrest
      | .noPool => exact ih _ k m post hrest
      | .httpThrow m' => exact absurd rfl (hhead.1 m')
      | .abortThrow => exact absurd rfl hhead.2

/--
Counterexample for C6: when the first token of the COMPARE ALL loop throws
an HTTP error, the whole operation ends in the outer error status, even
though the second token would have loaded successfully; the claimed
behaviour would be a successful load containing only the second token.
-/
theorem loadPricesAll_http_aborts :
    loadPricesAll [("PunkStrategy", .httpThrow "HTTP 429"), ("BirbStrategy", .ok 1)] =
      .errorStatus "HTTP 429" ∧
    loadPricesAll [("PunkStrategy", .httpThrow "HTTP 429"), ("BirbStrategy", .ok 1)] ≠
      .done [("BirbStrategy", 1)] := by
  exact ⟨rfl, by decide⟩

/--
C6 (amended): in the COMPARE ALL loop only the No-pool error object is
handled per token: such a token is skipped and the remaining tokens
continue to load, with the terminal no-data status exactly when no token
produced a dataset; but a thrown network or HTTP error from any single
token aborts the entire operation with an error status, skipping all
remaining tokens.
-/
theorem loadPricesAll_spec :
    (∀ tokens : List (String × TokenOutcome),
      (∀ p ∈ tokens, (∀ m, p.2 ≠ .httpThrow m) ∧ p.2 ≠ .abortThrow) →
      loadPricesAll tokens =
        if okList tokens = [] then .noData else .done (okList tokens)) ∧
    (∀ (pre post : List (String × TokenOutcome)) (k m : String),
      (∀ p ∈ pre, (∀ m', p.2 ≠ .httpThrow m') ∧ p.2 ≠ .abortThrow) →
      loadPricesAll (pre ++ (k, .httpThrow m) :: post) = .errorStatus m) := by
  constructor
  · intro tokens hp
    unfold loadPricesAll
    rw [compareAllLoop_no_throw tokens [] hp]
    simp only [List.nil_append]
    match h : okList tokens with
    | [] => simp
    | q :: qs => simp
  · intro pre post k m hp
    unfold loadPricesAll
    rw [compareAllLoop_throw pre [] k m post hp]

/--
Witness for C6 (amended): a No-pool token is skipped while the other
tokens load, and an HTTP throw aborts the operation.
-/
theorem loadPricesAll_spec_witness :
    loadPricesAll [("PunkStrategy", .noPool), ("BirbStrategy", .ok 2)] =
      (if okList [("PunkStrategy", .noPool), ("BirbStrategy", .ok 2)] = [] then
        .noData else .done (okList [("PunkStrategy", .noPool), ("BirbStrategy", .ok 2)])) :=
  loadPricesAll_spec.1 [("PunkStrategy", .noPool), ("BirbStrategy", .ok 2)]
    (by
      intro p hp
      rcases List.mem_cons.mp hp with rfl | hp2
      · exact ⟨fun m h => (nomatch h), fun h => (nomatch h)⟩
      · rcases List.mem_cons.mp hp2 with rfl | hp3
        · exact ⟨fun m h => (nomatch h), fun h => (nomatch h)⟩
        · cases hp3)

theorem div_pos_iff_of_pos {f p : ℚ} (hp : 0 < p) : 0 < f / p ↔ 0 < f := by
  rw [div_pos_iff]
  constructor
  · rintro (⟨hf, _⟩ | ⟨_, hpneg⟩)
    · exact hf
    · exact absurd hp (by linarith)
  · intro hf
    exact Or.inl ⟨hf, hp⟩

theorem deriveSupplyFdv_eq (a : TokenAttrs) (p : ℚ) (hp : 0 < p) :
    deriveSupplyFdv a p =
      firstPosFinite [(numOrNull a.fdv_usd).map (fun f => f / p)] := by
  unfold deriveSupplyFdv
  match hf : numOrNull a.fdv_usd with
  | none => simp [firstPosFinite]
  | some f =>
      simp only [Option.map_some]
      by_cases h : 0 < f
      · rw [if_pos h]
        simp [firstPosFinite, (div_pos_iff_of_pos hp).mpr h]
      · rw [if_neg h]
        have : ¬ 0 < f / p := fun hc => h ((div_pos_iff_of_pos hp).mp hc)
        simp [firstPosFinite, this]

theorem deriveSupplyRest56_eq (a : TokenAttrs) (price : Option ℚ) :
    deriveSupplyRest56 a price =
      firstPosFinite
        [(match price with
          | some p => if 0 < p then (numOrNull a.market_cap_usd).map (fun m => m / p) else none
          | none => none),
         (match price with
          | some p => if 0 < p then (numOrNull a.fdv_usd).map (fun f => f / p) else none
          | none => none)] := by
  unfold deriveSupplyRest56
  match price with
  | none => simp [firstPosFinite]
  | some p =>
      dsimp only
      by_cases hp : 0 < p
      · rw [if_pos hp, if_pos hp, if_pos hp]
        match hm : numOrNull a.market_cap_usd with
        | none =>
            simp only [Option.map_none]
            rw [deriveSupplyFdv_eq a p hp]
            simp [firstPosFinite]
        | some m =>
            simp only [Option.map_some]
            by_cases h : 0 < m
            · rw [if_pos h]
              simp [firstPosFinite, (div_pos_iff_of_pos hp).mpr h]
            · rw [if_neg h]
              have hnd : ¬ 0 < m / p := fun hc => h ((div_pos_iff_of_pos hp).mp hc)
              rw [deriveSupplyFdv_eq a p hp]
              simp [firstPosFinite, hnd]
      · rw [if_neg hp, if_neg hp, if_neg hp]
        simp [firstPosFinite]

theorem firstPosFinite_cons_step (o : Option ℚ) (rest : List (Option ℚ))
    (cont : Option ℚ) (hrest : firstPosFinite rest = cont) :
    (match o with
      | some q => if 0 < q then some q else cont
      | none => cont) = firstPosFinite (o :: rest) := by
  match o with
  | none => simpa [firstPosFinite] using hrest.symm
  | some q =>
      by_cases h : 0 < q
      · simp [firstPosFinite, h]
      · simpa [firstPosFinite, h] using hrest.symm

theorem deriveSupplyRest4_eq (a : TokenAttrs) (price : Option ℚ) :
    deriveSupplyRest4 a price =
      firstPosFinite
        (normalizeFromTotal a.total_supply a.decimals ::
          [(match price with
            | some p => if 0 < p then (numOrNull a.market_cap_usd).map (fun m => m / p) else none
            | none => none),
           (match price with
            | some p => if 0 < p then (numOrNull a.fdv_usd).map (fun f => f / p) else none
            | none => none)]) := by
  unfold deriveSupplyRest4
  rw [← firstPosFinite_cons_step _ _ _ (deriveSupplyRest56_eq a price).symm]

theorem deriveSupplyRest3_eq (a : TokenAttrs) (price : Option ℚ) :
    deriveSupplyRest3 a price =
      firstPosFinite
        (numOrNull a.normalized_total_supply ::
          normalizeFromTotal a.total_supply a.decimals ::
          [(match price with
            | some p => if 0 < p then (numOrNull a.market_cap_usd).map (fun m => m / p) else none
            | none => none),
           (match price with
            | some p => if 0 < p then (numOrNull a.fdv_usd).map (fun f => f / p) else none
            | none => none)]) := by
  unfold deriveSupplyRest3
  rw [← firstPosFinite_cons_step _ _ _ (deriveSupplyRest4_eq a price).symm]

theorem deriveSupplyRest2_eq (a : TokenAttrs) (price : Option ℚ) :
    deriveSupplyRest2 a price =
      firstPosFinite
        (numOrNull a.circulating_supply ::
          numOrNull a.normalized_total_supply ::
          normalizeFromTotal a.total_supply a.decimals ::
          [(match price with
            | some p => if 0 < p then (numOrNull a.market_cap_usd).map (fun m => m / p) else none
            | none => none),
           (match price with
            | some p => if 0 < p then (numOrNull a.fdv_usd).map (fun f => f / p) else none
            | none => none)]) := by
  unfold deriveSupplyRest2
  rw [← firstPosFinite_cons_step _ _ _ (deriveSupplyRest3_eq a price).symm]

theorem deriveSupplyForMcap_eq_firstPos (a : TokenAttrs) (refPrice : JSVal) :
    deriveSupplyForMcap a refPrice =
      firstPosFinite (supplySpecCandidates a refPrice) := by
  unfold deriveSupplyForMcap supplySpecCandidates
  simp only []
  rw [← firstPosFinite_cons_step _ _ _ (deriveSupplyRest2_eq a (numOrNull refPrice)).symm]

theorem firstPosFinite_of_take :
    ∀ (n : ℕ) (l l' : List (Option ℚ)),
      l.take n = l'.take n →
      (∃ o ∈ l.take n, isPos o) →
      firstPosFinite l = firstPosFinite l' := by
  intro n
  induction n with
  | zero =>
      intro l l' _ hex
      simp at hex
  | succ n ih =>
      intro l l' htake hex
      match l, l' with
      | [], _ => simp at hex
      | x :: xs, [] => simp at htake
      | x :: xs, y :: ys =>
          simp only [List.take_succ_cons, List.cons.injEq] at htake
          obtain ⟨rfl, hxs⟩ := htake
          by_cases hx : isPos x
          · match x, hx with
            | some q, hx =>
                have hq : 0 < q := hx
                simp only [firstPosFinite, if_pos hq]
          · have hex2 : ∃ o ∈ xs.take n, isPos o := by
              rcases hex with ⟨o, ho, hpos⟩
              rcases List.mem_cons.mp (by simpa using ho) with rfl | ho2
              · exact absurd hpos hx
              · exact ⟨o, ho2, hpos⟩
            have hrec := ih xs ys hxs hex2
            match x with
            | none => simpa [firstPosFinite] using hrec
            | some q =>
                have hq : ¬ 0 < q := hx
                simpa [firstPosFinite, hq] using hrec

theorem firstPosFinite_eq_none_iff :
    ∀ l : List (Option ℚ), firstPosFinite l = none ↔ ∀ o ∈ l, ¬ isPos o := by
  intro l
  induction l with
  | nil => simp [firstPosFinite]
  | cons o rest ih =>
      match o with
      | none =>
          simp only [firstPosFinite]
          rw [ih]
          constructor
          · intro h o' ho'
            rcases List.mem_cons.mp ho' with rfl | h2
            · exact fun hc => hc
            · exact h o' h2
          · intro h o' ho'
            exact h o' (List.mem_cons_of_mem _ ho')
      | some q =>
          by_cases hq : 0 < q
          · simp only [firstPosFinite, if_pos hq]
            constructor
            · intro h; cases h
            · intro h
              exact absurd hq (h (some q) (List.mem_cons_self _ _))
          · simp only [firstPosFinite, if_neg hq]
            rw [ih]
            constructor
            · intro h o' ho'
              rcases List.mem_cons.mp ho' with rfl | h2
              · exact hq
              · exact h o' h2
            · intro h o' ho'
              exact h o' (List.mem_cons_of_mem _ ho')

/--
C1: deriveSupplyForMcap realizes the documented priority chain exactly:
it returns the first of the six candidates (normalized circulating supply,
circulating supply, normalized total supply, decimal-adjusted total
supply, market cap over price, FDV over price, the last two only for a
positive reference price) that is a positive finite number, and null when
no candidate is; consequently, whenever a positive candidate occurs in a
prefix of the chain, the fields feeding the later candidates cannot
influence the result, and the result is null exactly when no rule yields
a positive finite value.
-/
theorem deriveSupplyForMcap_spec :
    (∀ (a : TokenAttrs) (refPrice : JSVal),
      deriveSupplyForMcap a refPrice =
        firstPosFinite (supplySpecCandidates a refPrice)) ∧
    (∀ (a a' : TokenAttrs) (refPrice refPrice' : JSVal) (n : ℕ),
      (supplySpecCandidates a refPrice).take n =
        (supplySpecCandidates a' refPrice').take n →
      (∃ o ∈ (supplySpecCandidates a refPrice).take n, isPos o) →
      deriveSupplyForMcap a refPrice = deriveSupplyForMcap a' refPrice') ∧
    (∀ (a : TokenAttrs) (refPrice : JSVal),
      deriveSupplyForMcap a refPrice = none ↔
        ∀ o ∈ supplySpecCandidates a refPrice, ¬ isPos o) := by
  refine ⟨deriveSupplyForMcap_eq_firstPos, ?_, ?_⟩
  · intro a a' refPrice refPrice' n htake hex
    rw [deriveSupplyForMcap_eq_firstPos, deriveSupplyForMcap_eq_firstPos]
    exact firstPosFinite_of_take n _ _ htake hex
  · intro a refPrice
    rw [deriveSupplyForMcap_eq_firstPos]
    exact firstPosFinite_eq_none_iff _

/--
Witness for C1: two attribute bags sharing a positive rule-1 candidate but
differing in every lower-priority field produce the same supply.
-/
theorem deriveSupplyForMcap_spec_witness :
    deriveSupplyForMcap exAttrsA (.num 1) = deriveSupplyForMcap exAttrsB (.num 2) :=
  deriveSupplyForMcap_spec.2.1 exAttrsA exAttrsB (.num 1) (.num 2) 1
    (by decide) (by decide)

/--
C10: with decimals absent, rule 4 is not skipped: the missing decimals
coerce to 0, so when rules 1 to 3 produce no positive finite value and the
raw total supply is a positive finite number, deriveSupplyForMcap returns
the total supply divided by 10 ^ 0, that is, undivided, rather than
falling through to the market-cap or FDV fallbacks.
-/
theorem deriveSupplyForMcap_missing_decimals :
    ∀ (a : TokenAttrs) (refPrice : JSVal) (t : ℚ),
      a.decimals = .missing →
      ¬ isPos (numOrNull a.normalized_circulating_supply) →
      ¬ isPos (numOrNull a.circulating_supply) →
      ¬ isPos (numOrNull a.normalized_total_supply) →
      numOrNull a.total_supply = some t →
      0 < t →
      deriveSupplyForMcap a refPrice = some t := by
  intro a refPrice t hdec h1 h2 h3 ht htpos
  have hnorm : normalizeFromTotal a.total_supply a.decimals = some t := by
    unfold normalizeFromTotal
    rw [ht, hdec]
    simp [decimalsCoerce]
  have hrest4 : deriveSupplyRest4 a (numOrNull refPrice) = some t := by
    unfold deriveSupplyRest4
    rw [hnorm]
    simp [htpos]
  have hrest3 : deriveSupplyRest3 a (numOrNull refPrice) = some t := by
    unfold deriveSupplyRest3
    match hv : numOrNull a.normalized_total_supply with
    | none => exact hrest4
    | some q =>
        have : ¬ 0 < q := by rw [hv] at h3; exact h3
        simpa [this] using hrest4
  have hrest2 : deriveSupplyRest2 a (numOrNull refPrice) = some t := by
    unfold deriveSupplyRest2
    match hv : numOrNull a.circulating_supply with
    | none => exact hrest3
    | some q =>
        have : ¬ 0 < q := by rw [hv] at h2; exact h2
        simpa [this] using hrest3
  unfold deriveSupplyForMcap
  simp only []
  match hv : numOrNull a.normalized_circulating_supply with
  | none => exact hrest2
  | some q =>
      have : ¬ 0 < q := by rw [hv] at h1; exact h1
      simpa [this] using hrest2

/--
Witness for C10: attributes with only a raw total supply of 5000, missing
decimals and a present market cap produce the undivided total supply.
-/
theorem deriveSupplyForMcap_missing_decimals_witness :
    deriveSupplyForMcap exAttrsTotal (.num 2) = some 5000 :=
  deriveSupplyForMcap_missing_decimals exAttrsTotal (.num 2) 5000
    rfl (by decide) (by decide) (by decide) rfl (by norm_num)

theorem poolOrder_refl (a : IncludedEnt) : poolOrder a a :=
  Or.inr ⟨rfl, le_rfl⟩

/--
C5: pickMostLiquidPool returns null exactly when the token JSON has no
included entity of type pool; otherwise it returns the pool that is
maximal for the order reserve_in_usd descending with ties broken by 24h
volume descending, and when the reserves are pairwise distinct the
selected pool is the one with maximal reserve_in_usd.
-/
theorem pickMostLiquidPool_spec :
    (∀ (tj : TokenJson) (addr : String),
      pickMostLiquidPool tj addr = none ↔
        tj.included.filter (fun x => x.typ == "pool") = []) ∧
    (∀ (tj : TokenJson) (addr : String) (p : ChosenPool),
      pickMostLiquidPool tj addr = some p →
      ∃ ent ∈ tj.included.filter (fun x => x.typ == "pool"),
        p.poolAddress = ent.address ∧
        p.reserveUSD = q0 ent.reserve_in_usd ∧
        ∀ e ∈ tj.included.filter (fun x => x.typ == "pool"), poolOrder ent e) ∧
    (∀ (tj : TokenJson) (addr : String) (p : ChosenPool),
      pickMostLiquidPool tj addr = some p →
      ((tj.included.filter (fun x => x.typ == "pool")).map
          (fun e => q0 e.reserve_in_usd)).Nodup →
      ∀ e ∈ tj.included.filter (fun x => x.typ == "pool"),
        (∀ e' ∈ tj.included.filter (fun x => x.typ == "pool"),
          q0 e'.reserve_in_usd ≤ q0 e.reserve_in_usd) →
        p.poolAddress = e.address ∧ p.reserveUSD = q0 e.reserve_in_usd) := by
  have hmain :
      ∀ (tj : TokenJson) (addr : String) (p : ChosenPool),
        pickMostLiquidPool tj addr = some p →
        ∃ ent ∈ tj.included.filter (fun x => x.typ == "pool"),
          p.poolAddress = ent.address ∧
          p.reserveUSD = q0 ent.reserve_in_usd ∧
          ∀ e ∈ tj.included.filter (fun x => x.typ == "pool"), poolOrder ent e := by
    intro tj addr p hp
    unfold pickMostLiquidPool at hp
    set data := tj.included.filter (fun x => x.typ == "pool") with hdata
    by_cases hempty : data.isEmpty
    · rw [if_pos hempty] at hp
      cases hp
    · rw [if_neg hempty] at hp
      have hperm := List.perm_insertionSort poolOrder data
      have hsorted := List.sorted_insertionSort poolOrder data
      match hs : List.insertionSort poolOrder data with
      | [] =>
          rw [hs] at hperm
          rw [List.isEmpty_iff] at hempty
          exact absurd hperm.symm.eq_nil hempty
      | pool :: rest =>
          rw [hs] at hp hperm hsorted
          refine ⟨pool, ?_, ?_, ?_, ?_⟩
          · exact hperm.mem_iff.mp (List.mem_cons_self _ _)
          · cases hp; rfl
          · cases hp; rfl
          · intro e he
            have hes : e ∈ pool :: rest := hperm.symm.mem_iff.mp he
            rcases List.mem_cons.mp hes with rfl | hes2
            · exact poolOrder_refl e
            · exact (List.sorted_cons.mp hsorted).1 e hes2
  refine ⟨?_, hmain, ?_⟩
  · intro tj addr
    constructor
    · intro hnone
      unfold pickMostLiquidPool at hnone
      set data := tj.included.filter (fun x => x.typ == "pool") with hdata
      by_cases hempty : data.isEmpty
      · exact List.isEmpty_iff.mp hempty
      · rw [if_neg hempty] at hnone
        have hperm := List.perm_insertionSort poolOrder data
        match hs : List.insertionSort poolOrder data with
        | [] =>
            rw [hs] at hperm
            rw [List.isEmpty_iff] at hempty
            exact absurd hperm.symm.eq_nil hempty
        | pool :: rest =>
            rw [hs] at hnone
            cases hnone
    · intro hnil
      unfold pickMostLiquidPool
      rw [if_pos (List.isEmpty_iff.mpr hnil)]
  · intro tj addr p hp hnd e he hemax
    obtain ⟨ent, hent, haddr, hres, hord⟩ := hmain tj addr p hp
    have h1 : q0 ent.reserve_in_usd ≤ q0 e.reserve_in_usd := hemax ent hent
    have h2 : q0 e.reserve_in_usd ≤ q0 ent.reserve_in_usd := by
      rcases hord e he with hlt | ⟨heq, _⟩
      · exact le_of_lt hlt
      · exact le_of_eq heq.symm
    have heq : q0 ent.reserve_in_usd = q0 e.reserve_in_usd := le_antisymm h1 h2
    have : ent = e := List.inj_on_of_nodup_map hnd hent he heq
    subst this
    exact ⟨haddr, hres⟩

/--
Witness for C5: on the concrete token JSON with reserves 5 and 9 the pool
with reserve 9 is selected.
-/
theorem pickMostLiquidPool_spec_witness :
    ∃ ent ∈ exTokenJson.included.filter (fun x => x.typ == "pool"),
      exChosenPool.poolAddress = ent.address ∧
      exChosenPool.reserveUSD = q0 ent.reserve_in_usd ∧
      ∀ e ∈ exTokenJson.included.filter (fun x => x.typ == "pool"),
        poolOrder ent e :=
  pickMostLiquidPool_spec.2.1 exTokenJson "0xb" exChosenPool (by decide)

theorem find?_eq_head?_filter {α : Type} (p : α → Bool) :
    ∀ l : List α, l.find? p = (l.filter p).head? := by
  intro l
  induction l with
  | nil => rfl
  | cons x xs ih =>
      cases hx : p x with
      | true =>
          rw [List.find?_cons, List.filter_cons, hx]
          simp only [if_true]
          rfl
      | false =>
          rw [List.find?_cons, List.filter_cons, hx]
          simp only [Bool.false_eq_true, if_false]
          exact ih

theorem lookupRow_eq_filter (rows : List Candle) (t : ℤ) :
    lookupRow rows t = ((rowsAt rows t).reverse).head? := by
  unfold lookupRow rowsAt
  rw [find?_eq_head?_filter, ← List.filter_reverse]

theorem rowsAt_eq_nil (rows : List Candle) (t : ℤ)
    (h : ∀ r ∈ rows, r.ts ≠ t) : rowsAt rows t = [] := by
  unfold rowsAt
  rw [List.filter_eq_nil_iff]
  intro r hr
  simpa using h r hr

theorem rowsAt_eq_singleton (rows : List Candle) (t : ℤ) (r : Candle)
    (hnd : (rows.map Candle.ts).Nodup) (hr : r ∈ rows) (ht : r.ts = t) :
    rowsAt rows t = [r] := by
  induction rows with
  | nil => cases hr
  | cons x xs ih =>
      rw [List.map_cons, List.nodup_cons] at hnd
      rcases List.mem_cons.mp hr with rfl | hr2
      · unfold rowsAt
        rw [List.filter_cons]
        rw [if_pos (by simpa using ht)]
        have hxs : List.filter (fun r' => r'.ts == t) xs = [] := by
          rw [List.filter_eq_nil_iff]
          intro y hy hyt
          apply hnd.1
          rw [beq_iff_eq] at hyt
          have hre : r.ts = y.ts := by rw [ht, ← hyt]
          rw [hre]
          exact List.mem_map_of_mem Candle.ts hy
        rw [hxs]
      · unfold rowsAt
        rw [List.filter_cons]
        rw [if_neg ?hneg]
        case hneg =>
          simp only [beq_iff_eq]
          intro hxt
          apply hnd.1
          rw [← ht] at hxt
          rw [hxt]
          exact List.mem_map_of_mem Candle.ts hr2
        exact ih hnd.2 hr2

/--
C7: in the multi-token projection, a grid index whose timestamp matches no
row of the dataset yields null (never zero and never interpolated); a row
whose timestamp equals the grid point contributes its metric value at that
index; the value at an index depends only on the rows carrying exactly
that grid timestamp; and the worked example of spec section 8 projects the
close series of rows at 1000 and 4600 onto the grid 1000, 4600, 8200 as
10, 12, null.
-/
theorem projectSeries_spec :
    (∀ (rows : List Candle) (supply : Option ℚ) (launchTs : JSVal)
        (grid : List ℤ) (ser : Metric) (i : ℕ) (t : ℤ),
      grid[i]? = some t →
      (∀ r ∈ rows, r.ts ≠ t) →
      (projectSeries rows supply launchTs grid ser)[i]? = some none) ∧
    (∀ (rows : List Candle) (supply : Option ℚ) (launchTs : JSVal)
        (grid : List ℤ) (ser : Metric) (i : ℕ) (t : ℤ) (r : Candle),
      grid[i]? = some t →
      (rows.map Candle.ts).Nodup → r ∈ rows → r.ts = t →
      (projectSeries rows supply launchTs grid ser)[i]? =
        some (metricVal ser r supply launchTs t)) ∧
    (∀ (rows rows' : List Candle) (supply : Option ℚ) (launchTs : JSVal)
        (grid : List ℤ) (ser : Metric) (i : ℕ) (t : ℤ),
      grid[i]? = some t →
      rowsAt rows t = rowsAt rows' t →
      (projectSeries rows supply launchTs grid ser)[i]? =
        (projectSeries rows' supply launchTs grid ser)[i]?) ∧
    (projectSeries exProjRows none .missing [1000, 4600, 8200] .mclose =
      [some 10, some 12, none]) := by
  have hcell : ∀ (rows : List Candle) (supply : Option ℚ) (launchTs : JSVal)
      (grid : List ℤ) (ser : Metric) (i : ℕ) (t : ℤ),
      grid[i]? = some t →
      (projectSeries rows supply launchTs grid ser)[i]? =
        some (match lookupRow rows t with
              | none => none
              | some r => metricVal ser r supply launchTs t) := by
    intro rows supply launchTs grid ser i t hg
    unfold projectSeries
    rw [List.getElem?_map, hg]
    rfl
  refine ⟨?_, ?_, ?_, by decide⟩
  · intro rows supply launchTs grid ser i t hg hno
    rw [hcell rows supply launchTs grid ser i t hg]
    rw [lookupRow_eq_filter, rowsAt_eq_nil rows t hno]
    rfl
  · intro rows supply launchTs grid ser i t r hg hnd hr ht
    rw [hcell rows supply launchTs grid ser i t hg]
    rw [lookupRow_eq_filter, rowsAt_eq_singleton rows t r hnd hr ht]
    rfl
  · intro rows rows' supply launchTs grid ser i t hg hsame
    rw [hcell rows supply launchTs grid ser i t hg,
      hcell rows' supply launchTs grid ser i t hg]
    rw [lookupRow_eq_filter, lookupRow_eq_filter, hsame]

/--
Witness for C7: the middle grid point 4600 of the worked example matches
the second row exactly, landing at index 1.
-/
theorem projectSeries_spec_witness :
    (projectSeries exProjRows none .missing [1000, 4600, 8200] .mclose)[1]? =
      some (metricVal .mclose ⟨4600, 0, 0, 0, 12, 0⟩ none .missing 4600) :=
  projectSeries_spec.2.1 exProjRows none .missing [1000, 4600, 8200] .mclose 1 4600
    ⟨4600, 0, 0, 0, 12, 0⟩ (by decide) (by decide) (by decide) (by decide)

theorem groupOf_append_single (l : List Candle) (k : Candle) (b : ℤ) :
    groupOf (l ++ [k]) b =
      groupOf l b ++ (if bucketKey k.ts = b then [k] else []) := by
  unfold groupOf
  rw [List.filter_append]
  congr 1
  by_cases hb : bucketKey k.ts = b
  · simp [hb]
  · simp [hb]

theorem summarizes_single (key : ℤ) (k : Candle) :
    Summarizes [k] (newBucket key k) := by
  unfold Summarizes newBucket
  refine ⟨?_, ?_, ?_, ?_, ⟨?_, ?_⟩, ⟨?_, ?_⟩, ?_⟩ <;> simp

theorem summarizes_update (g : List Candle) (k : Candle) (b : Bucket)
    (h : Summarizes g b) : Summarizes (g ++ [k]) (updateBucket b k) := by
  obtain ⟨hmin, hmax, ho, hc, ⟨hhm, hhb⟩, ⟨hlm, hlb⟩, hv⟩ := h
  unfold Summarizes updateBucket
  simp only []
  refine ⟨?_, ?_, ?_, ?_, ⟨?_, ?_⟩, ⟨?_, ?_⟩, ?_⟩
  · intro x hx
    rcases List.mem_append.mp hx with hx | hx
    · by_cases hlt : k.ts < b.firstTs
      · rw [if_pos hlt]
        exact le_of_lt (lt_of_lt_of_le hlt (hmin x hx))
      · rw [if_neg hlt]
        exact hmin x hx
    · rw [List.mem_singleton] at hx
      subst hx
      by_cases hlt : x.ts < b.firstTs
      · rw [if_pos hlt]
      · rw [if_neg hlt]
        omega
  · intro x hx
    rcases List.mem_append.mp hx with hx | hx
    · by_cases hlt : b.lastTs < k.ts
      · rw [if_pos hlt]
        exact le_of_lt (lt_of_le_of_lt (hmax x hx) hlt)
      · rw [if_neg hlt]
        exact hmax x hx
    · rw [List.mem_singleton] at hx
      subst hx
      by_cases hlt : b.lastTs < x.ts
      · rw [if_pos hlt]
      · rw [if_neg hlt]
        omega
  · by_cases hlt : k.ts < b.firstTs
    · refine ⟨k, List.mem_append_right _ (List.mem_singleton_self k), ?_, ?_⟩
      · rw [if_pos hlt]
      · rw [if_pos hlt]
    · obtain ⟨x, hx, hxt, hxo⟩ := ho
      refine ⟨x, List.mem_append_left _ hx, ?_, ?_⟩
      · rw [if_neg hlt]; exact hxt
      · rw [if_neg hlt]; exact hxo
  · by_cases hlt : b.lastTs < k.ts
    · refine ⟨k, List.mem_append_right _ (List.mem_singleton_self k), ?_, ?_⟩
      · rw [if_pos hlt]
      · rw [if_pos hlt]
    · obtain ⟨x, hx, hxt, hxc⟩ := hc
      refine ⟨x, List.mem_append_left _ hx, ?_, ?_⟩
      · rw [if_neg hlt]; exact hxt
      · rw [if_neg hlt]; exact hxc
  · rw [List.map_append, List.mem_append]
    rcases max_choice b.h k.h with hm | hm
    · rw [hm]
      exact Or.inl hhm
    · rw [hm]
      exact Or.inr (by simp)
  · intro x hx
    rcases List.mem_append.mp hx with hx | hx
    · exact le_trans (hhb x hx) (le_max_left _ _)
    · rw [List.mem_singleton] at hx
      subst hx
      exact le_max_right _ _
  · rw [List.map_append, List.mem_append]
    rcases min_choice b.l k.l with hm | hm
    · rw [hm]
      exact Or.inl hlm
    · rw [hm]
      exact Or.inr (by simp)
  · intro x hx
    rcases List.mem_append.mp hx with hx | hx
    · exact le_trans (min_le_left _ _) (hlb x hx)
    · rw [List.mem_singleton] at hx
      subst hx
      exact min_le_right _ _
  · rw [List.map_append, List.sum_append, hv]
    simp

theorem mapInv_insert (processed : List Candle) (m : List (ℤ × Bucket))
    (k : Candle) (hinv : MapInv processed m) :
    MapInv (processed ++ [k]) (insertCandle m k) := by
  obtain ⟨hnd, hts, hsum, hiff⟩ := hinv
  unfold insertCandle
  dsimp only
  by_cases hc : m.any (fun p => p.1 == bucketKey k.ts)
  · rw [if_pos hc]
    have hkeymem : bucketKey k.ts ∈ m.map Prod.fst := by
      rw [List.any_eq_true] at hc
      obtain ⟨p, hp, hpe⟩ := hc
      rw [beq_iff_eq] at hpe
      rw [← hpe]
      exact List.mem_map_of_mem Prod.fst hp
    have hfst : (m.map (fun p =>
        if p.1 == bucketKey k.ts then (p.1, updateBucket p.2 k) else p)).map
        Prod.fst = m.map Prod.fst := by
      rw [List.map_map]
      apply List.map_congr_left
      intro p _
      by_cases hpk : p.1 = bucketKey k.ts
      · simp [hpk]
      · simp [hpk]
    refine ⟨?_, ?_, ?_, ?_⟩
    · rw [hfst]; exact hnd
    · intro q hq
      rw [List.mem_map] at hq
      obtain ⟨p, hp, rfl⟩ := hq
      by_cases hpk : p.1 = bucketKey k.ts
      · simp only [hpk, beq_self_eq_true, if_true]
        show p.2.ts = bucketKey k.ts
        rw [← hpk]
        exact hts p hp
      · rw [if_neg (by simpa using hpk)]
        exact hts p hp
    · intro q hq
      rw [List.mem_map] at hq
      obtain ⟨p, hp, rfl⟩ := hq
      by_cases hpk : p.1 = bucketKey k.ts
      · simp only [hpk, beq_self_eq_true, if_true]
        rw [groupOf_append_single, if_pos rfl]
        have hs := hsum p hp
        rw [hpk] at hs
        exact summarizes_update _ k _ hs
      · rw [if_neg (by simpa using hpk)]
        rw [groupOf_append_single, if_neg (fun he => hpk he.symm)]
        rw [List.append_nil]
        exact hsum p hp
    · intro b
      rw [hfst]
      constructor
      · intro hb
        obtain ⟨x, hx, hxe⟩ := (hiff b).mp hb
        exact ⟨x, List.mem_append_left _ hx, hxe⟩
      · intro ⟨x, hx, hxe⟩
        rcases List.mem_append.mp hx with hx | hx
        · exact (hiff b).mpr ⟨x, hx, hxe⟩
        · rw [List.mem_singleton] at hx
          subst hx
          rw [← hxe]
          exact hkeymem
  · rw [if_neg hc]
    have hnotmem : bucketKey k.ts ∉ m.map Prod.fst := by
      intro hmem
      rw [List.mem_map] at hmem
      obtain ⟨p, hp, hpe⟩ := hmem
      apply hc
      rw [List.any_eq_true]
      exact ⟨p, hp, by rw [beq_iff_eq]; exact hpe⟩
    refine ⟨?_, ?_, ?_, ?_⟩
    · rw [List.map_append]
      rw [List.nodup_append]
      refine ⟨hnd, by simp, ?_⟩
      intro a ha hb
      simp only [List.map_cons, List.map_nil, List.mem_singleton] at hb
      subst hb
      exact hnotmem ha
    · intro p hp
      rcases List.mem_append.mp hp with hp | hp
      · exact hts p hp
      · rw [List.mem_singleton] at hp
        subst hp
        rfl
    · intro p hp
      rcases List.mem_append.mp hp with hp | hp
      · rw [groupOf_append_single, if_neg ?hne2]
        case hne2 =>
          intro he
          apply hnotmem
          rw [he]
          exact List.mem_map_of_mem Prod.fst hp
        rw [List.append_nil]
        exact hsum p hp
      · rw [List.mem_singleton] at hp
        subst hp
        dsimp only
        rw [groupOf_append_single, if_pos rfl]
        have hgnil : groupOf processed (bucketKey k.ts) = [] := by
          unfold groupOf
          rw [List.filter_eq_nil_iff]
          intro x hx hxe
          apply hnotmem
          rw [hiff (bucketKey k.ts)]
          rw [beq_iff_eq] at hxe
          exact ⟨x, hx, hxe⟩
        rw [hgnil, List.nil_append]
        exact summarizes_single (bucketKey k.ts) k
    · intro b
      rw [List.map_append]
      simp only [List.map_cons, List.map_nil]
      rw [List.mem_append, List.mem_singleton]
      constructor
      · intro h
        rcases h with hb | rfl
        · obtain ⟨x, hx, hxe⟩ := (hiff b).mp hb
          exact ⟨x, List.mem_append_left _ hx, hxe⟩
        · exact ⟨k, List.mem_append_right _ (List.mem_singleton_self k), rfl⟩
      · intro ⟨x, hx, hxe⟩
        rcases List.mem_append.mp hx with hx | hx
        · exact Or.inl ((hiff b).mpr ⟨x, hx, hxe⟩)
        · rw [List.mem_singleton] at hx
          subst hx
          exact Or.inr hxe.symm

theorem mapInv_foldl :
    ∀ (l processed : List Candle) (m : List (ℤ × Bucket)),
      MapInv processed m →
      MapInv (processed ++ l) (List.foldl insertCandle m l) := by
  intro l
  induction l with
  | nil =>
      intro processed m h
      simpa using h
  | cons k rest ih =>
      intro processed m h
      rw [List.foldl_cons]
      have hstep := mapInv_insert processed m k h
      have := ih (processed ++ [k]) _ hstep
      rwa [List.append_assoc, List.singleton_append] at this

theorem mapInv_nil : MapInv [] [] := by
  refine ⟨List.nodup_nil, ?_, ?_, ?_⟩
  · intro p hp; cases hp
  · intro p hp; cases hp
  · intro b
    simp

theorem pairwise_lt_of_le_nodup :
    ∀ xs : List Candle, xs.Pairwise candleTsLe → (xs.map Candle.ts).Nodup →
      xs.Pairwise (fun a b => a.ts < b.ts) := by
  intro xs
  induction xs with
  | nil => intro _ _; exact List.Pairwise.nil
  | cons x l ih =>
      intro hp hnd
      rw [List.pairwise_cons] at hp ⊢
      rw [List.map_cons, List.nodup_cons] at hnd
      refine ⟨?_, ih hp.2 hnd.2⟩
      intro y hy
      have hle : x.ts ≤ y.ts := hp.1 y hy
      have hne : x.ts ≠ y.ts := fun he =>
        hnd.1 (he ▸ List.mem_map_of_mem Candle.ts hy)
      exact lt_of_le_of_ne hle hne

theorem groupOf_ts_nodup (l : List Candle) (b : ℤ)
    (hnd : (l.map Candle.ts).Nodup) : ((groupOf l b).map Candle.ts).Nodup := by
  have hsub : List.Sublist (groupOf l b) l := List.filter_sublist l
  exact hnd.sublist (hsub.map Candle.ts)

/--
C4: aggregateTo10m maps the empty input to the empty output; on any input
with pairwise distinct timestamps the output is strictly ascending in the
bucket timestamp, carries exactly one candle per bucket key
floor(ts/600)*600 occurring in the input, and each output candle has the
open of the bucket member with the smallest timestamp, the close of the
member with the largest timestamp, the maximum of the highs, the minimum
of the lows, and the sum of the volumes of its bucket.
-/
theorem aggregateTo10m_spec :
    aggregateTo10m [] = [] ∧
    ∀ l : List Candle, (l.map Candle.ts).Nodup →
      (aggregateTo10m l).Pairwise (fun a b => a.ts < b.ts) ∧
      ((aggregateTo10m l).map Candle.ts).Nodup ∧
      (∀ b : ℤ, (∃ cb ∈ aggregateTo10m l, cb.ts = b) ↔
        ∃ k ∈ l, bucketKey k.ts = b) ∧
      (∀ cb ∈ aggregateTo10m l,
        (∀ x ∈ groupOf l cb.ts, (∀ y ∈ groupOf l cb.ts, x.ts ≤ y.ts) → cb.o = x.o) ∧
        (∀ x ∈ groupOf l cb.ts, (∀ y ∈ groupOf l cb.ts, y.ts ≤ x.ts) → cb.c = x.c) ∧
        cb.h ∈ (groupOf l cb.ts).map Candle.h ∧
        (∀ x ∈ groupOf l cb.ts, x.h ≤ cb.h) ∧
        cb.l ∈ (groupOf l cb.ts).map Candle.l ∧
        (∀ x ∈ groupOf l cb.ts, cb.l ≤ x.l) ∧
        cb.v = ((groupOf l cb.ts).map Candle.v).sum) := by
  constructor
  · rfl
  · intro l hnd
    have hinv := mapInv_foldl l [] [] mapInv_nil
    rw [List.nil_append] at hinv
    obtain ⟨hmnd, hmts, hmsum, hmiff⟩ := hinv
    have hperm : (aggregateTo10m l).Perm
        ((l.foldl insertCandle []).map (fun p => bucketCandle p.2)) :=
      List.perm_insertionSort _ _
    have hsorted : List.Sorted candleTsLe (aggregateTo10m l) :=
      List.sorted_insertionSort _ _
    have htsmap : ((l.foldl insertCandle []).map
        (fun p => bucketCandle p.2)).map Candle.ts =
        (l.foldl insertCandle []).map Prod.fst := by
      rw [List.map_map]
      apply List.map_congr_left
      intro p hp
      simp only [Function.comp_apply]
      exact hmts p hp
    have hpermts : ((aggregateTo10m l).map Candle.ts).Perm
        ((l.foldl insertCandle []).map Prod.fst) := by
      rw [← htsmap]
      exact hperm.map Candle.ts
    have hndts : ((aggregateTo10m l).map Candle.ts).Nodup :=
      hpermts.nodup_iff.mpr hmnd
    refine ⟨pairwise_lt_of_le_nodup _ hsorted hndts, hndts, ?_, ?_⟩
    · intro b
      rw [show (∃ cb ∈ aggregateTo10m l, cb.ts = b) ↔
          b ∈ (aggregateTo10m l).map Candle.ts from List.mem_map.symm]
      rw [hpermts.mem_iff]
      exact hmiff b
    · intro cb hcb
      have hcbm : cb ∈ (l.foldl insertCandle []).map (fun p => bucketCandle p.2) :=
        hperm.subset hcb
      rw [List.mem_map] at hcbm
      obtain ⟨p, hp, rfl⟩ := hcbm
      have htsp : (bucketCandle p.2).ts = p.1 := hmts p hp
      obtain ⟨hmin, hmax, ho, hc, ⟨hhm, hhb⟩, ⟨hlm, hlb⟩, hv⟩ := hmsum p hp
      have hgnd := groupOf_ts_nodup l p.1 hnd
      rw [show (bucketCandle p.2).ts = p.1 from htsp]
      refine ⟨?_, ?_, hhm, hhb, hlm, hlb, hv⟩
      · intro x hx hxmin
        obtain ⟨k0, hk0, hk0t, hk0o⟩ := ho
        have h1 : x.ts ≤ k0.ts := hxmin k0 hk0
        have h2 : p.2.firstTs ≤ x.ts := hmin x hx
        have hxeq : x.ts = k0.ts := le_antisymm h1 (by omega)
        have hxk0 : x = k0 := List.inj_on_of_nodup_map hgnd hx hk0 hxeq
        show p.2.o = x.o
        rw [hk0o, hxk0]
      · intro x hx hxmax
        obtain ⟨k0, hk0, hk0t, hk0c⟩ := hc
        have h1 : k0.ts ≤ x.ts := hxmax k0 hk0
        have h2 : x.ts ≤ p.2.lastTs := hmax x hx
        have hxeq : x.ts = k0.ts := le_antisymm (by omega) h1
        have hxk0 : x = k0 := List.inj_on_of_nodup_map hgnd hx hk0 hxeq
        show p.2.c = x.c
        rw [hk0c, hxk0]

/--
Witness for C4: the three concrete one-minute candles spanning two
buckets aggregate to a strictly ascending bucket series.
-/
theorem aggregateTo10m_spec_witness :
    (aggregateTo10m exAggInput).Pairwise (fun a b => a.ts < b.ts) :=
  (aggregateTo10m_spec.2 exAggInput (by decide)).1

end StrategyUtils
